import Mathlib

/-!
# Verification of the chicha-superresolution reconstruction core

Shallow embedding of the multi-frame super-resolution pipeline of
`chicha-superresolution.go` (and the near-duplicate revisions shipped with the
repository).  Conventions used throughout:

* All rasters in the program have zero-origin bounds (decoded images and
  `image.NewRGBA(image.Rect(0, 0, w, h))`), so a raster is modelled as a width,
  a height and a total pixel function; loops over `bounds.Min .. bounds.Max`
  become loops over `0 .. w-1` / `0 .. h-1`.
* A pixel holds the three 8-bit channel samples obtained in the source as
  `r >> 8` from Go's 16-bit `RGBA()`; alpha is constant 255 everywhere in the
  program and is not modelled.
* Go `float64` arithmetic on the exact integer data handled here is modelled
  exactly over `ℚ`; `math.MaxFloat64` is the exact rational `2^1024 - 2^971`.
* Go `uint32` subtraction wraps modulo `2^32`; this is modelled explicitly.
* Fallible code (Go panics) is modelled with `Option`, `none` meaning a panic.
-/

/-- One pixel: the three 8-bit colour samples (`r >> 8` of Go's 16-bit
channels).  Channel values of rasters produced by the program lie in
`[0, 255]`; see `Raster.Wf`. -/
structure Pixel where
  r : ℕ
  g : ℕ
  b : ℕ
deriving DecidableEq, Repr

/-- A raster image with zero-origin bounds: width, height, and the pixel
grid as a total function (Go's `At` is total on `image.RGBA`). -/
structure Raster where
  w : ℕ
  h : ℕ
  pix : ℕ → ℕ → Pixel

/-- Wellformedness: every channel sample is an 8-bit value.  This holds for
every raster the program manipulates (decoded images and everything produced
from them). -/
def Raster.Wf (img : Raster) : Prop :=
  ∀ x y : ℕ, (img.pix x y).r ≤ 255 ∧ (img.pix x y).g ≤ 255 ∧ (img.pix x y).b ≤ 255

/-- `color.Black` as stored into an RGBA image: (0,0,0). -/
def blackPixel : Pixel := ⟨0, 0, 0⟩

/-- The exact value of Go's `math.MaxFloat64` (= `(2 - 2^-52) * 2^1023`). -/
def maxFloat64 : ℚ := 2 ^ 1024 - 2 ^ 971

/-- Go's `math.Round`: round half away from zero (inputs in this program are
never NaN/Inf). -/
def goRound (q : ℚ) : ℤ :=
  if q < 0 then -(⌊-q + 1/2⌋) else ⌊q + 1/2⌋

/-- Go `uint32` subtraction `a - b` (wrapping modulo `2^32`), as it occurs in
`dr := float64((refR >> 8) - (imgR >> 8))`. -/
def wrapSub (a b : ℕ) : ℕ :=
  (a % 2 ^ 32 + 2 ^ 32 - b % 2 ^ 32) % 2 ^ 32

/-- One squared per-channel difference exactly as the source computes it:
the square of the *wrapped unsigned* difference. -/
def sqDiff (a b : ℕ) : ℕ := wrapSub a b * wrapSub a b

/-- The row-major scan of a `w × h` pixel grid: `y` outer ascending, `x`
inner ascending — the iteration order of every nested pixel loop in the
source. -/
def scanCoords (w h : ℕ) : List (ℕ × ℕ) :=
  (List.range h).flatMap fun y => (List.range w).map fun x => (x, y)

/-- Embedding of `computeSSD` (chicha-superresolution.go:279-304): raw sum of
squared per-channel differences over the reference's coordinate space, where
a shifted coordinate that falls outside the *reference's* bounds is skipped.
The per-channel difference wraps as a `uint32` (see `wrapSub`); `float64`
accumulation of these integers is modelled exactly in `ℚ`. -/
def computeSSD (refImg img : Raster) (xShift yShift : ℤ) : ℚ :=
  (scanCoords refImg.w refImg.h).foldl
    (fun ssd xy =>
      let imgX : ℤ := (xy.1 : ℤ) + xShift
      let imgY : ℤ := (xy.2 : ℤ) + yShift
      if imgX < 0 ∨ (refImg.w : ℤ) ≤ imgX ∨ imgY < 0 ∨ (refImg.h : ℤ) ≤ imgY then ssd
      else
        let rp := refImg.pix xy.1 xy.2
        let ip := img.pix imgX.toNat imgY.toNat
        ssd + (sqDiff rp.r ip.r : ℚ) + (sqDiff rp.g ip.g : ℚ) + (sqDiff rp.b ip.b : ℚ))
    0

/-- Embedding of `calculateDifference` (chicha-superresolution.go:401-434):
mean of the squared per-channel (wrapped) differences over the pixels whose
shifted coordinate lies inside the *candidate's* bounds; `math.MaxFloat64`
when no pixel pair is in bounds. -/
def calculateDifference (refImg img : Raster) (dx dy : ℤ) : ℚ :=
  let res :=
    (scanCoords refImg.w refImg.h).foldl
      (fun (st : ℚ × ℕ) xy =>
        let imgX : ℤ := (xy.1 : ℤ) + dx
        let imgY : ℤ := (xy.2 : ℤ) + dy
        if imgX < 0 ∨ (img.w : ℤ) ≤ imgX ∨ imgY < 0 ∨ (img.h : ℤ) ≤ imgY then st
        else
          let rp := refImg.pix xy.1 xy.2
          let ip := img.pix imgX.toNat imgY.toNat
          (st.1 + (sqDiff rp.r ip.r : ℚ) + (sqDiff rp.g ip.g : ℚ) + (sqDiff rp.b ip.b : ℚ),
           st.2 + 1))
      (0, 0)
  if res.2 = 0 then maxFloat64 else res.1 / (res.2 : ℚ)

/-- The Difference Metric as the specification states it: the sum, over the
in-bounds pixel pairs, of the squared per-channel differences taken over the
*integers* (`(r1 - r2)^2` in `ℤ`, no unsigned wrap).  Written from the spec's
words for comparison with `computeSSD`. -/
def specSSD (refImg img : Raster) (xShift yShift : ℤ) : ℤ :=
  (scanCoords refImg.w refImg.h).foldl
    (fun ssd xy =>
      let imgX : ℤ := (xy.1 : ℤ) + xShift
      let imgY : ℤ := (xy.2 : ℤ) + yShift
      if imgX < 0 ∨ (refImg.w : ℤ) ≤ imgX ∨ imgY < 0 ∨ (refImg.h : ℤ) ≤ imgY then ssd
      else
        let rp := refImg.pix xy.1 xy.2
        let ip := img.pix imgX.toNat imgY.toNat
        ssd + ((rp.r : ℤ) - ip.r) ^ 2 + ((rp.g : ℤ) - ip.g) ^ 2 + ((rp.b : ℤ) - ip.b) ^ 2)
    0

/-- A 1×1 raster whose single pixel is the given triple. -/
def onePix (r g b : ℕ) : Raster := ⟨1, 1, fun _ _ => ⟨r, g, b⟩⟩

/-- A 2×2 raster, all pixels opaque white. -/
def white2 : Raster := ⟨2, 2, fun _ _ => ⟨255, 255, 255⟩⟩

/-- The search grid of shift candidates from `-S` to `S` along one axis, in
ascending loop order. -/
def intRange (S : ℕ) : List ℤ :=
  (List.range (2 * S + 1)).map fun (i : ℕ) => (i : ℤ) - S

/-- All candidate offsets `(dx, dy)` in the scan order of the source's nested
loops: `yShift` (the second component) outer ascending, `xShift` inner
ascending. -/
def offsets (S : ℕ) : List (ℤ × ℤ) :=
  (intRange S).flatMap fun dy => (intRange S).map fun dx => (dx, dy)

/-- The running-minimum loop shared by `estimateTranslation` and
`findOverlap`: state is `(minScore, bestDx, bestDy)`; a candidate replaces the
state only when its score is *strictly* smaller, so the first-processed
candidate wins ties. -/
def runMin (s : ℤ × ℤ → ℚ) : ℚ × ℤ × ℤ → List (ℤ × ℤ) → ℚ × ℤ × ℤ
  | st, [] => st
  | st, c :: cs => runMin s (if s c < st.1 then (s c, c) else st) cs

/-- Embedding of `estimateTranslation` (chicha-superresolution.go:257-276)
with the search radius (`maxShift := 10` in the source) kept as a parameter:
exhaustive scan of the offset grid keeping the strictly smallest
`computeSSD`, starting from `minSSD = math.MaxFloat64`, `best = (0,0)`. -/
def translationSearch (maxShift : ℕ) (refImg img : Raster) : ℤ × ℤ :=
  (runMin (fun c => computeSSD refImg img c.1 c.2) (maxFloat64, 0, 0) (offsets maxShift)).2

/-- `estimateTranslation` proper, with the source's hardcoded radius 10. -/
def estimateTranslation (refImg img : Raster) : ℤ × ℤ :=
  translationSearch 10 refImg img

/-- One execution of `findOverlap` (chicha-superresolution.go:357-397): the
per-offset scores arrive on a channel in a scheduler-dependent order
(`order`, always some permutation of `offsets 50`), and the consumer keeps
the strictly smallest score, first arrival winning ties. -/
def findOverlapExec (refImg img : Raster) (order : List (ℤ × ℤ)) : ℤ × ℤ :=
  (runMin (fun c => calculateDifference refImg img c.1 c.2) (maxFloat64, 0, 0) order).2

/-- The canonical (launch-order) execution of `findOverlap`, with the
source's hardcoded radius 50. -/
def findOverlap (refImg img : Raster) : ℤ × ℤ :=
  findOverlapExec refImg img (offsets 50)

theorem runMin_fst_le_init (s : ℤ × ℤ → ℚ) (l : List (ℤ × ℤ)) :
    ∀ st : ℚ × ℤ × ℤ, (runMin s st l).1 ≤ st.1 := by
  induction l with
  | nil => intro st; exact le_refl _
  | cons c cs ih =>
    intro st
    rw [runMin]
    by_cases h : s c < st.1
    · simp only [if_pos h]
      exact le_trans (ih _) (le_of_lt h)
    · simp only [if_neg h]
      exact ih st

theorem runMin_fst_le (s : ℤ × ℤ → ℚ) (l : List (ℤ × ℤ)) :
    ∀ st : ℚ × ℤ × ℤ, ∀ c ∈ l, (runMin s st l).1 ≤ s c := by
  induction l with
  | nil => intro st c hc; cases hc
  | cons a as ih =>
    intro st c hc
    rw [runMin]
    rcases List.mem_cons.mp hc with rfl | hc
    · refine le_trans (runMin_fst_le_init s as _) ?_
      by_cases h : s c < st.1
      · simp only [if_pos h]
        exact le_refl _
      · simp only [if_neg h]
        exact le_of_not_lt h
    · exact ih _ c hc

theorem runMin_attained (s : ℤ × ℤ → ℚ) (l : List (ℤ × ℤ)) :
    ∀ st : ℚ × ℤ × ℤ, runMin s st l = st ∨
      ((runMin s st l).2 ∈ l ∧ (runMin s st l).1 = s (runMin s st l).2 ∧
        (runMin s st l).1 < st.1) := by
  induction l with
  | nil => intro st; exact Or.inl rfl
  | cons a as ih =>
    intro st
    rw [runMin]
    by_cases h : s a < st.1
    · simp only [if_pos h]
      rcases ih (s a, a) with heq | ⟨hmem, hfst, hlt⟩
      · right
        rw [heq]
        exact ⟨List.mem_cons_self a as, rfl, h⟩
      · right
        exact ⟨List.mem_cons_of_mem a hmem, hfst, lt_trans hlt h⟩
    · simp only [if_neg h]
      rcases ih st with heq | ⟨hmem, hfst, hlt⟩
      · exact Or.inl heq
      · exact Or.inr ⟨List.mem_cons_of_mem a hmem, hfst, hlt⟩

theorem runMin_stay (s : ℤ × ℤ → ℚ) (l : List (ℤ × ℤ)) :
    ∀ st : ℚ × ℤ × ℤ, (∀ c ∈ l, st.1 ≤ s c) → runMin s st l = st := by
  induction l with
  | nil => intro st _; rfl
  | cons a as ih =>
    intro st h
    rw [runMin]
    have ha : ¬ s a < st.1 := not_lt.mpr (h a (List.mem_cons_self a as))
    simp only [if_neg ha]
    exact ih st (fun c hc => h c (List.mem_cons_of_mem a hc))

theorem runMin_find (s : ℤ × ℤ → ℚ) (l : List (ℤ × ℤ)) :
    ∀ st : ℚ × ℤ × ℤ, (∃ c ∈ l, s c < st.1) →
      (runMin s st l).1 < st.1 ∧
        l.find? (fun c => decide (s c = (runMin s st l).1)) = some (runMin s st l).2 := by
  induction l with
  | nil =>
    intro st h
    exact absurd h (by simp)
  | cons a as ih =>
    intro st hex
    rw [runMin]
    by_cases h : s a < st.1
    · simp only [if_pos h]
      by_cases h2 : ∃ c ∈ as, s c < s a
      · obtain ⟨hlt, hfind⟩ := ih (s a, a) h2
        refine ⟨lt_trans hlt h, ?_⟩
        rw [List.find?_cons_of_neg _ ?_]
        · exact hfind
        · simp only [decide_eq_true_eq]
          intro hh
          exact absurd hh (ne_of_gt hlt)
      · push_neg at h2
        have heq := runMin_stay s as (s a, a) h2
        rw [heq]
        exact ⟨h, List.find?_cons_of_pos _ (by simp)⟩
    · simp only [if_neg h]
      have hex2 : ∃ c ∈ as, s c < st.1 := by
        rcases hex with ⟨c, hc, hlt⟩
        rcases List.mem_cons.mp hc with rfl | hc
        · exact absurd hlt h
        · exact ⟨c, hc, hlt⟩
      obtain ⟨hlt, hfind⟩ := ih st hex2
      refine ⟨hlt, ?_⟩
      rw [List.find?_cons_of_neg _ ?_]
      · exact hfind
      · simp only [decide_eq_true_eq]
        intro hh
        exact absurd hh (ne_of_gt (lt_of_lt_of_le hlt (not_lt.mp h)))

theorem foldl_id {α β : Type} (f : β → α → β) :
    ∀ l : List α, (∀ b, ∀ x ∈ l, f b x = b) → ∀ b, l.foldl f b = b := by
  intro l
  induction l with
  | nil => intro _ b; rfl
  | cons x xs ih =>
    intro hf b
    rw [List.foldl_cons, hf b x (List.mem_cons_self x xs)]
    exact ih (fun b2 y hy => hf b2 y (List.mem_cons_of_mem x hy)) b

theorem foldl_nonneg {α : Type} (f : ℚ → α → ℚ) (hf : ∀ a x, 0 ≤ a → 0 ≤ f a x)
    (l : List α) : ∀ a, 0 ≤ a → 0 ≤ l.foldl f a := by
  induction l with
  | nil => intro a ha; exact ha
  | cons x xs ih =>
    intro a ha
    rw [List.foldl_cons]
    exact ih _ (hf a x ha)

theorem foldl_le_linear {α : Type} (f : ℚ → α → ℚ) (B : ℚ)
    (hf : ∀ a x, f a x ≤ a + B) (l : List α) :
    ∀ a, l.foldl f a ≤ a + l.length * B := by
  induction l with
  | nil => intro a; simp
  | cons x xs ih =>
    intro a
    rw [List.foldl_cons]
    refine le_trans (ih (f a x)) ?_
    have hx := hf a x
    simp only [List.length_cons]
    push_cast
    linarith

theorem length_scanCoords (w h : ℕ) : (scanCoords w h).length = w * h := by
  induction h with
  | zero => simp [scanCoords]
  | succ n ih =>
    have hsplit : scanCoords w (n + 1) =
        scanCoords w n ++ (List.range w).map (fun x => (x, n)) := by
      simp [scanCoords, List.range_succ]
    rw [hsplit, List.length_append, ih, List.length_map, List.length_range]
    ring

theorem mem_intRange (S : ℕ) (z : ℤ) : z ∈ intRange S ↔ -(S : ℤ) ≤ z ∧ z ≤ S := by
  simp only [intRange, List.mem_map, List.mem_range]
  constructor
  · rintro ⟨i, hi, rfl⟩
    omega
  · intro h
    exact ⟨(z + S).toNat, by omega, by omega⟩

theorem mem_offsets (S : ℕ) (c : ℤ × ℤ) :
    c ∈ offsets S ↔ -(S : ℤ) ≤ c.1 ∧ c.1 ≤ S ∧ -(S : ℤ) ≤ c.2 ∧ c.2 ≤ S := by
  rcases c with ⟨dx, dy⟩
  simp only [offsets, List.mem_flatMap, List.mem_map]
  constructor
  · rintro ⟨dy0, hdy, dx0, hdx, heq⟩
    obtain ⟨h1, h2⟩ := (mem_intRange S dy0).mp hdy
    obtain ⟨h3, h4⟩ := (mem_intRange S dx0).mp hdx
    cases heq
    exact ⟨h3, h4, h1, h2⟩
  · rintro ⟨h1, h2, h3, h4⟩
    exact ⟨dy, (mem_intRange S dy).mpr ⟨h3, h4⟩, dx, (mem_intRange S dx).mpr ⟨h1, h2⟩, rfl⟩

theorem length_intRange (S : ℕ) : (intRange S).length = 2 * S + 1 := by
  rw [intRange, List.length_map, List.length_range]

theorem length_offsets (S : ℕ) : (offsets S).length = (2 * S + 1) ^ 2 := by
  have : ∀ l : List ℤ, (l.flatMap fun dy => (intRange S).map fun dx => (dx, dy)).length
      = l.length * (2 * S + 1) := by
    intro l
    induction l with
    | nil => simp
    | cons z zs ih => simp [ih, length_intRange]; ring
  rw [offsets, this, length_intRange]
  ring

theorem maxFloat64_pos : 0 < maxFloat64 := by
  rw [maxFloat64]; norm_num

theorem sqDiff_le (a b : ℕ) : sqDiff a b ≤ 4294967295 ^ 2 := by
  have h : wrapSub a b ≤ 4294967295 := by
    have := Nat.mod_lt (a % 2 ^ 32 + 2 ^ 32 - b % 2 ^ 32) (show 0 < 2 ^ 32 by norm_num)
    rw [wrapSub]
    omega
  calc sqDiff a b = wrapSub a b * wrapSub a b := rfl
    _ ≤ 4294967295 * 4294967295 := Nat.mul_le_mul h h
    _ = 4294967295 ^ 2 := by ring

theorem computeSSD_nonneg (refImg img : Raster) (dx dy : ℤ) :
    0 ≤ computeSSD refImg img dx dy := by
  unfold computeSSD
  refine foldl_nonneg _ ?_ _ 0 (le_refl 0)
  intro a xy ha
  simp only []
  split
  · exact ha
  · positivity
theorem foldl_pair_fst_nonneg {α : Type} (f : ℚ × ℕ → α → ℚ × ℕ)
    (hf : ∀ st x, 0 ≤ st.1 → 0 ≤ (f st x).1) (l : List α) :
    ∀ st, 0 ≤ st.1 → 0 ≤ (l.foldl f st).1 := by
  induction l with
  | nil => intro st h; exact h
  | cons x xs ih =>
    intro st h
    rw [List.foldl_cons]
    exact ih _ (hf st x h)

theorem calculateDifference_nonneg (refImg img : Raster) (dx dy : ℤ) :
    0 ≤ calculateDifference refImg img dx dy := by
  unfold calculateDifference
  simp only []
  split
  · exact le_of_lt maxFloat64_pos
  · refine div_nonneg ?_ (Nat.cast_nonneg _)
    refine foldl_pair_fst_nonneg _ ?_ _ (0, 0) (le_refl 0)
    intro st xy hst
    split
    · exact hst
    · exact add_nonneg (add_nonneg (add_nonneg hst (Nat.cast_nonneg _)) (Nat.cast_nonneg _))
        (Nat.cast_nonneg _)

theorem sqDiff_cast_le (u v : ℕ) : (sqDiff u v : ℚ) ≤ (4294967295 : ℚ) ^ 2 := by
  have h := sqDiff_le u v
  calc (sqDiff u v : ℚ) ≤ ((4294967295 ^ 2 : ℕ) : ℚ) := Nat.cast_le.mpr h
    _ = (4294967295 : ℚ) ^ 2 := by push_cast; ring

theorem computeSSD_le (refImg img : Raster) (dx dy : ℤ) :
    computeSSD refImg img dx dy ≤
      ((refImg.w * refImg.h : ℕ) : ℚ) * (3 * (4294967295 : ℚ) ^ 2) := by
  unfold computeSSD
  refine le_trans (foldl_le_linear _ (3 * (4294967295 : ℚ) ^ 2) ?_ _ 0) ?_
  · intro a xy
    dsimp only
    split
    · have : (0 : ℚ) ≤ 3 * (4294967295 : ℚ) ^ 2 := by positivity
      linarith
    · have h1 := sqDiff_cast_le (refImg.pix xy.1 xy.2).r
        (img.pix ((xy.1 : ℤ) + dx).toNat ((xy.2 : ℤ) + dy).toNat).r
      have h2 := sqDiff_cast_le (refImg.pix xy.1 xy.2).g
        (img.pix ((xy.1 : ℤ) + dx).toNat ((xy.2 : ℤ) + dy).toNat).g
      have h3 := sqDiff_cast_le (refImg.pix xy.1 xy.2).b
        (img.pix ((xy.1 : ℤ) + dx).toNat ((xy.2 : ℤ) + dy).toNat).b
      linarith
  · rw [length_scanCoords]
    simp

theorem computeSSD_lt_maxFloat (refImg img : Raster) (dx dy : ℤ)
    (hw : refImg.w ≤ 2 ^ 63) (hh : refImg.h ≤ 2 ^ 63) :
    computeSSD refImg img dx dy < maxFloat64 := by
  refine lt_of_le_of_lt (computeSSD_le refImg img dx dy) ?_
  have h1 : ((refImg.w * refImg.h : ℕ) : ℚ) ≤ ((2 ^ 126 : ℕ) : ℚ) := by
    have h2 := Nat.mul_le_mul hw hh
    exact_mod_cast le_trans h2 (by norm_num)
  refine lt_of_le_of_lt (mul_le_mul_of_nonneg_right h1 (by positivity)) ?_
  rw [maxFloat64]
  push_cast
  norm_num

/-- **C4**: for every reference raster, candidate raster and search radius
`S`, the exhaustive translation search (`estimateTranslation`; the source
instantiates the radius to 10) returns an offset inside the
`[-S,S] × [-S,S]` grid of `(2S+1)^2` candidates whose score is minimal, and
among equal-score offsets it returns the first one in the fixed scan order
(`dy` ascending, then `dx` ascending) — stated via `List.find?` on the scan
list.  The size hypotheses record that Go image dimensions fit in an `int`,
which keeps every score strictly below the `math.MaxFloat64` sentinel. -/
theorem translationSearch_first_argmin (S : ℕ) (refImg img : Raster)
    (hw : refImg.w ≤ 2 ^ 63) (hh : refImg.h ≤ 2 ^ 63) :
    translationSearch S refImg img ∈ offsets S ∧
    (∀ c ∈ offsets S,
        computeSSD refImg img (translationSearch S refImg img).1
            (translationSearch S refImg img).2 ≤ computeSSD refImg img c.1 c.2) ∧
    (offsets S).find? (fun c => decide (computeSSD refImg img c.1 c.2 =
        computeSSD refImg img (translationSearch S refImg img).1
          (translationSearch S refImg img).2)) = some (translationSearch S refImg img) ∧
    (offsets S).length = (2 * S + 1) ^ 2 := by
  unfold translationSearch
  have hzero : ((0 : ℤ), (0 : ℤ)) ∈ offsets S := by
    refine (mem_offsets S (0, 0)).mpr ⟨?_, ?_, ?_, ?_⟩ <;> simp
  obtain ⟨hlt, hfind⟩ := runMin_find (fun c => computeSSD refImg img c.1 c.2) (offsets S)
    (maxFloat64, 0, 0) ⟨(0, 0), hzero, computeSSD_lt_maxFloat refImg img 0 0 hw hh⟩
  rcases runMin_attained (fun c => computeSSD refImg img c.1 c.2) (offsets S)
      (maxFloat64, 0, 0) with heq | ⟨hmem, hfst, _⟩
  · rw [heq] at hlt
    exact absurd hlt (lt_irrefl _)
  · simp only [] at hfst hfind hlt
    refine ⟨hmem, ?_, ?_, length_offsets S⟩
    · intro c hc
      have h1 := runMin_fst_le (fun c => computeSSD refImg img c.1 c.2) (offsets S)
        (maxFloat64, 0, 0) c hc
      simp only [] at h1
      rw [← hfst]
      exact h1
    · rw [hfst] at hfind
      exact hfind

/-- Witness for `translationSearch_first_argmin` at `S = 1` on concrete 1×1
rasters. -/
theorem translationSearch_first_argmin_witness :
    (onePix 5 5 5).w ≤ 2 ^ 63 ∧
    (translationSearch 1 (onePix 5 5 5) (onePix 7 7 7) ∈ offsets 1 ∧
      (∀ c ∈ offsets 1,
          computeSSD (onePix 5 5 5) (onePix 7 7 7)
              (translationSearch 1 (onePix 5 5 5) (onePix 7 7 7)).1
              (translationSearch 1 (onePix 5 5 5) (onePix 7 7 7)).2 ≤
            computeSSD (onePix 5 5 5) (onePix 7 7 7) c.1 c.2) ∧
      (offsets 1).find? (fun c => decide (computeSSD (onePix 5 5 5) (onePix 7 7 7) c.1 c.2 =
          computeSSD (onePix 5 5 5) (onePix 7 7 7)
            (translationSearch 1 (onePix 5 5 5) (onePix 7 7 7)).1
            (translationSearch 1 (onePix 5 5 5) (onePix 7 7 7)).2)) =
        some (translationSearch 1 (onePix 5 5 5) (onePix 7 7 7)) ∧
      (offsets 1).length = (2 * 1 + 1) ^ 2) :=
  ⟨by norm_num [onePix],
   translationSearch_first_argmin 1 (onePix 5 5 5) (onePix 7 7 7)
     (by norm_num [onePix]) (by norm_num [onePix])⟩

/-- **C1**: the specification says each per-channel squared difference is
`(r1 - r2)^2` over the integers, but the source subtracts the two `uint32`
samples, which wraps modulo `2^32` whenever the candidate's sample exceeds
the reference's.  At reference pixel `(0,0,0)` against candidate pixel
`(1,1,1)` with offset `(0,0)` the code yields `3·(2^32-1)^2` where the
specification demands `3`. -/
theorem computeSSD_wraps_vs_spec :
    computeSSD (onePix 0 0 0) (onePix 1 1 1) 0 0 = 3 * ((2 : ℚ) ^ 32 - 1) ^ 2 ∧
    specSSD (onePix 0 0 0) (onePix 1 1 1) 0 0 = 3 ∧
    computeSSD (onePix 0 0 0) (onePix 1 1 1) 0 0 ≠
      ((specSSD (onePix 0 0 0) (onePix 1 1 1) 0 0 : ℤ) : ℚ) := by
  refine ⟨?_, ?_, ?_⟩ <;>
    norm_num [computeSSD, specSSD, scanCoords, sqDiff, wrapSub, onePix, List.range_succ]

/-- **C3 (counterexample)**: under the raw-SSD policy (`computeSSD`) a
no-overlap offset does *not* produce the maximal-dissimilarity sentinel: it
returns `0`, the best possible score.  (Two 1×1 rasters, offset `(3,0)`: no
pixel pair is in bounds.) -/
theorem computeSSD_zero_on_no_overlap :
    computeSSD (onePix 9 9 9) (onePix 9 9 9) 3 0 = 0 ∧ (0 : ℚ) ≠ maxFloat64 := by
  constructor
  · norm_num [computeSSD, scanCoords, sqDiff, wrapSub, onePix, List.range_succ]
  · rw [maxFloat64]
    norm_num

/-- **C3 (amended)**: when no pixel pair is in bounds for the candidate
offset, the mean-squared policy (`calculateDifference`) returns the
`math.MaxFloat64` sentinel (no division by zero, no NaN, no crash), while
the raw-SSD policy (`computeSSD`) returns `0` — not the sentinel.  Stated
for rasters of equal dimensions, as the spec assumes for a Frame Set. -/
theorem metric_no_overlap (refImg img : Raster) (dx dy : ℤ)
    (hw : img.w = refImg.w) (hh : img.h = refImg.h)
    (hno : ∀ xy ∈ scanCoords refImg.w refImg.h,
      (xy.1 : ℤ) + dx < 0 ∨ (refImg.w : ℤ) ≤ (xy.1 : ℤ) + dx ∨
      (xy.2 : ℤ) + dy < 0 ∨ (refImg.h : ℤ) ≤ (xy.2 : ℤ) + dy) :
    calculateDifference refImg img dx dy = maxFloat64 ∧
    computeSSD refImg img dx dy = 0 := by
  constructor
  · unfold calculateDifference
    rw [hw, hh]
    have hfold := foldl_id
      (fun (st : ℚ × ℕ) (xy : ℕ × ℕ) =>
        let imgX : ℤ := (xy.1 : ℤ) + dx
        let imgY : ℤ := (xy.2 : ℤ) + dy
        if imgX < 0 ∨ (refImg.w : ℤ) ≤ imgX ∨ imgY < 0 ∨ (refImg.h : ℤ) ≤ imgY then st
        else
          let rp := refImg.pix xy.1 xy.2
          let ip := img.pix imgX.toNat imgY.toNat
          (st.1 + (sqDiff rp.r ip.r : ℚ) + (sqDiff rp.g ip.g : ℚ) + (sqDiff rp.b ip.b : ℚ),
           st.2 + 1))
      (scanCoords refImg.w refImg.h)
      (fun b xy hxy => by
        dsimp only
        rw [if_pos (hno xy hxy)])
      (0, 0)
    rw [hfold]
    rfl
  · unfold computeSSD
    have hfold := foldl_id
      (fun (ssd : ℚ) (xy : ℕ × ℕ) =>
        let imgX : ℤ := (xy.1 : ℤ) + dx
        let imgY : ℤ := (xy.2 : ℤ) + dy
        if imgX < 0 ∨ (refImg.w : ℤ) ≤ imgX ∨ imgY < 0 ∨ (refImg.h : ℤ) ≤ imgY then ssd
        else
          let rp := refImg.pix xy.1 xy.2
          let ip := img.pix imgX.toNat imgY.toNat
          ssd + (sqDiff rp.r ip.r : ℚ) + (sqDiff rp.g ip.g : ℚ) + (sqDiff rp.b ip.b : ℚ))
      (scanCoords refImg.w refImg.h)
      (fun b xy hxy => by
        dsimp only
        rw [if_pos (hno xy hxy)])
      0
    rw [hfold]

/-- Witness for `metric_no_overlap` on two 1×1 rasters at offset `(3,0)`. -/
theorem metric_no_overlap_witness :
    calculateDifference (onePix 4 4 4) (onePix 6 6 6) 3 0 = maxFloat64 ∧
    computeSSD (onePix 4 4 4) (onePix 6 6 6) 3 0 = 0 :=
  metric_no_overlap (onePix 4 4 4) (onePix 6 6 6) 3 0 rfl rfl (by decide)

/-- Embedding of `shiftImage` (chicha-superresolution.go:307-325): a raster of
the same bounds where pixel `(x, y)` is the source pixel `(x - dx, y - dy)`
when that coordinate is in bounds and `color.Black` otherwise.  (The grid
function is only meaningful on the canvas `x < w, y < h`, like Go's `At`.) -/
def shiftImage (img : Raster) (dx dy : ℤ) : Raster :=
  ⟨img.w, img.h, fun x y =>
    let srcX : ℤ := (x : ℤ) - dx
    let srcY : ℤ := (y : ℤ) - dy
    if srcX < 0 ∨ (img.w : ℤ) ≤ srcX ∨ srcY < 0 ∨ (img.h : ℤ) ≤ srcY then blackPixel
    else img.pix srcX.toNat srcY.toNat⟩

/-- One execution of `findAndAlignImages` (chicha-superresolution.go:327-354)
on a non-empty frame set `ref :: rest`: element 0 is the reference unchanged,
and frame `i > 0` is shifted by the offset `findOverlap` returned for it
under that frame's channel arrival order `orders[i-1]`. -/
def findAndAlignImagesExec (ref : Raster) (rest : List Raster)
    (orders : List (List (ℤ × ℤ))) : List Raster :=
  ref :: List.zipWith (fun img ord =>
    let o := findOverlapExec ref img ord
    shiftImage img o.1 o.2) rest orders

theorem zipWith_getElem? {α β γ : Type} (f : α → β → γ) :
    ∀ (l₁ : List α) (l₂ : List β) (i : ℕ) (a : α) (b : β),
      l₁[i]? = some a → l₂[i]? = some b → (List.zipWith f l₁ l₂)[i]? = some (f a b) := by
  intro l₁
  induction l₁ with
  | nil => intro l₂ i a b h; simp at h
  | cons x xs ih =>
    intro l₂ i a b h1 h2
    cases l₂ with
    | nil => simp at h2
    | cons y ys =>
      cases i with
      | zero =>
        simp only [List.getElem?_cons_zero, Option.some.injEq] at h1 h2
        subst h1
        subst h2
        rw [List.zipWith_cons_cons, List.getElem?_cons_zero]
      | succ n =>
        simp only [List.getElem?_cons_succ] at h1 h2
        rw [List.zipWith_cons_cons, List.getElem?_cons_succ]
        exact ih ys n a b h1 h2

/-- **C5**: on a non-empty Frame Set the Frame Aligner returns a sequence of
the same length; element 0 is the unmodified reference; element `i > 0` is
input frame `i` resampled by the Estimator's offset for that frame, where
output pixel `(x,y)` is input pixel `(x-dx, y-dy)` when in bounds and opaque
black otherwise. -/
theorem findAndAlignImages_spec (ref : Raster) (rest : List Raster)
    (orders : List (List (ℤ × ℤ))) (hlen : orders.length = rest.length) :
    (findAndAlignImagesExec ref rest orders).length = (ref :: rest).length ∧
    (findAndAlignImagesExec ref rest orders)[0]? = some ref ∧
    (∀ i img ord, rest[i]? = some img → orders[i]? = some ord →
      (findAndAlignImagesExec ref rest orders)[i + 1]? =
        some (shiftImage img (findOverlapExec ref img ord).1
          (findOverlapExec ref img ord).2)) ∧
    (∀ img : Raster, ∀ dx dy : ℤ, ∀ x y : ℕ,
      (shiftImage img dx dy).pix x y =
        if (x : ℤ) - dx < 0 ∨ (img.w : ℤ) ≤ (x : ℤ) - dx ∨
           (y : ℤ) - dy < 0 ∨ (img.h : ℤ) ≤ (y : ℤ) - dy then blackPixel
        else img.pix ((x : ℤ) - dx).toNat ((y : ℤ) - dy).toNat) := by
  refine ⟨?_, ?_, ?_, ?_⟩
  · simp [findAndAlignImagesExec, hlen]
  · rw [findAndAlignImagesExec, List.getElem?_cons_zero]
  · intro i img ord h1 h2
    rw [findAndAlignImagesExec, List.getElem?_cons_succ]
    exact zipWith_getElem? _ rest orders i img ord h1 h2
  · intro img dx dy x y
    rfl

/-- Witness for `findAndAlignImages_spec` on a concrete two-frame set. -/
theorem findAndAlignImages_spec_witness :
    (findAndAlignImagesExec (onePix 1 2 3) [onePix 4 5 6] [offsets 0]).length =
        ((onePix 1 2 3) :: [onePix 4 5 6]).length ∧
    (findAndAlignImagesExec (onePix 1 2 3) [onePix 4 5 6] [offsets 0])[0]? =
        some (onePix 1 2 3) ∧
    (∀ i img ord, [onePix 4 5 6][i]? = some img → [offsets 0][i]? = some ord →
      (findAndAlignImagesExec (onePix 1 2 3) [onePix 4 5 6] [offsets 0])[i + 1]? =
        some (shiftImage img (findOverlapExec (onePix 1 2 3) img ord).1
          (findOverlapExec (onePix 1 2 3) img ord).2)) ∧
    (∀ img : Raster, ∀ dx dy : ℤ, ∀ x y : ℕ,
      (shiftImage img dx dy).pix x y =
        if (x : ℤ) - dx < 0 ∨ (img.w : ℤ) ≤ (x : ℤ) - dx ∨
           (y : ℤ) - dy < 0 ∨ (img.h : ℤ) ≤ (y : ℤ) - dy then blackPixel
        else img.pix ((x : ℤ) - dx).toNat ((y : ℤ) - dy).toNat) :=
  findAndAlignImages_spec (onePix 1 2 3) [onePix 4 5 6] [offsets 0] rfl

theorem floor_intCast_add_half (z : ℤ) : ⌊(z : ℚ) + 1/2⌋ = z := by
  rw [Int.floor_eq_iff]
  constructor
  · linarith
  · linarith

theorem goRound_intCast (z : ℤ) : goRound (z : ℚ) = z := by
  unfold goRound
  split
  · have hz : -(z : ℚ) = ((-z : ℤ) : ℚ) := by push_cast; ring
    rw [hz, floor_intCast_add_half, neg_neg]
  · exact floor_intCast_add_half z

theorem goRound_natCast (n : ℕ) : goRound (n : ℚ) = n := by
  have h := goRound_intCast (n : ℤ)
  exact_mod_cast h

theorem goRound_nonneg (q : ℚ) (h : 0 ≤ q) : 0 ≤ goRound q := by
  unfold goRound
  rw [if_neg (not_lt.mpr h)]
  exact Int.le_floor.mpr (by push_cast; linarith)

theorem goRound_le (q : ℚ) (m : ℤ) (h0 : 0 ≤ q) (h : q ≤ m) : goRound q ≤ m := by
  unfold goRound
  rw [if_neg (not_lt.mpr h0)]
  have hm : ⌊q + 1/2⌋ ≤ ⌊(m : ℚ) + 1/2⌋ := Int.floor_le_floor (by linarith)
  rwa [floor_intCast_add_half] at hm

/-- Modelled from the spec: the Upscaler.  `performSuperResolution` upscales
each aligned frame with `draw.BiLinear.Scale` from golang.org/x/image/draw,
library code that is not part of this repository.  Spec §4.4: bilinear
interpolation treating the source as a continuous field sampled at its pixel
centers, edge pixels clamped, no wraparound; the exact rounding mode is an
implementation freedom (round half away from zero, matching `math.Round`, is
chosen here).  Destination pixel centre `(X+1/2, Y+1/2)` maps to source
coordinate `sx = (X+1/2)·w/W − 1/2` (likewise `sy`), and the four clamped
neighbouring samples are blended with the fractional weights. -/
def clampIndex (z : ℤ) (n : ℕ) : ℕ := min z.toNat (n - 1)

/-- One bilinear sample of the source field at continuous coordinate
`(sx, sy)`, with edge clamping (part of the spec-modelled Upscaler). -/
def bilinearSample (src : Raster) (sx sy : ℚ) : Pixel :=
  let fx : ℚ := sx - ⌊sx⌋
  let fy : ℚ := sy - ⌊sy⌋
  let x0 : ℕ := clampIndex ⌊sx⌋ src.w
  let x1 : ℕ := clampIndex (⌊sx⌋ + 1) src.w
  let y0 : ℕ := clampIndex ⌊sy⌋ src.h
  let y1 : ℕ := clampIndex (⌊sy⌋ + 1) src.h
  let blend : ℕ → ℕ → ℕ → ℕ → ℚ := fun a b c d =>
    (1 - fy) * ((1 - fx) * a + fx * b) + fy * ((1 - fx) * c + fx * d)
  ⟨(goRound (blend (src.pix x0 y0).r (src.pix x1 y0).r
      (src.pix x0 y1).r (src.pix x1 y1).r)).toNat,
   (goRound (blend (src.pix x0 y0).g (src.pix x1 y0).g
      (src.pix x0 y1).g (src.pix x1 y1).g)).toNat,
   (goRound (blend (src.pix x0 y0).b (src.pix x1 y0).b
      (src.pix x0 y1).b (src.pix x1 y1).b)).toNat⟩

def scaleTo (W H : ℕ) (src : Raster) : Raster :=
  ⟨W, H, fun X Y =>
    bilinearSample src (((X : ℚ) + 1/2) * ((src.w : ℚ) / (W : ℚ)) - 1/2)
      (((Y : ℚ) + 1/2) * ((src.h : ℚ) / (H : ℚ)) - 1/2)⟩

theorem bilinearSample_natCast (src : Raster) (x y : ℕ) (hx : x < src.w) (hy : y < src.h) :
    bilinearSample src (x : ℚ) (y : ℚ) = src.pix x y := by
  unfold bilinearSample clampIndex
  simp only [Int.floor_natCast, Int.cast_natCast, sub_self, Int.toNat_natCast,
    mul_zero, zero_mul, add_zero, sub_zero, one_mul, mul_one]
  rw [Nat.min_eq_left (by omega), Nat.min_eq_left (by omega),
    goRound_natCast, goRound_natCast, goRound_natCast, Int.toNat_natCast,
    Int.toNat_natCast, Int.toNat_natCast]

theorem scaleTo_pix_id (src : Raster) (x y : ℕ) (hx : x < src.w) (hy : y < src.h) :
    (scaleTo src.w src.h src).pix x y = src.pix x y := by
  have hw0 : (src.w : ℚ) ≠ 0 := Nat.cast_ne_zero.mpr (by omega)
  have hh0 : (src.h : ℚ) ≠ 0 := Nat.cast_ne_zero.mpr (by omega)
  unfold scaleTo
  dsimp only
  rw [div_self hw0, div_self hh0, mul_one, mul_one,
    add_sub_cancel_right, add_sub_cancel_right]
  exact bilinearSample_natCast src x y hx hy

theorem bilinearSample_congr (src1 src2 : Raster) (hw : src2.w = src1.w)
    (hh : src2.h = src1.h) (hw0 : 0 < src1.w) (hh0 : 0 < src1.h)
    (hpix : ∀ x y, x < src1.w → y < src1.h → src1.pix x y = src2.pix x y)
    (sx sy : ℚ) : bilinearSample src1 sx sy = bilinearSample src2 sx sy := by
  unfold bilinearSample
  dsimp only
  rw [hw, hh]
  have hX : ∀ z : ℤ, clampIndex z src1.w < src1.w := by
    intro z
    unfold clampIndex
    omega
  have hY : ∀ z : ℤ, clampIndex z src1.h < src1.h := by
    intro z
    unfold clampIndex
    omega
  rw [hpix _ _ (hX _) (hY _), hpix _ _ (hX _) (hY _), hpix _ _ (hX _) (hY _),
    hpix _ _ (hX _) (hY _)]

theorem convex_bound (t a b : ℚ) (ht0 : 0 ≤ t) (ht1 : t ≤ 1) (ha0 : 0 ≤ a)
    (ha : a ≤ 255) (hb0 : 0 ≤ b) (hb : b ≤ 255) :
    0 ≤ (1 - t) * a + t * b ∧ (1 - t) * a + t * b ≤ 255 := by
  constructor
  · have h1 : 0 ≤ (1 - t) * a := mul_nonneg (by linarith) ha0
    have h2 : 0 ≤ t * b := mul_nonneg ht0 hb0
    linarith
  · nlinarith [mul_nonneg (sub_nonneg.mpr ht1) (sub_nonneg.mpr ha),
      mul_nonneg ht0 (sub_nonneg.mpr hb)]

theorem sub_floor_bounds (q : ℚ) : 0 ≤ q - ⌊q⌋ ∧ q - ⌊q⌋ ≤ 1 := by
  constructor
  · have h := Int.floor_le q
    linarith
  · have h := Int.lt_floor_add_one q
    push_cast at h
    linarith

theorem bilinearSample_channels_le (src : Raster) (hWf : src.Wf) (sx sy : ℚ) :
    (bilinearSample src sx sy).r ≤ 255 ∧ (bilinearSample src sx sy).g ≤ 255 ∧
    (bilinearSample src sx sy).b ≤ 255 := by
  obtain ⟨hfx0, hfx1⟩ := sub_floor_bounds sx
  obtain ⟨hfy0, hfy1⟩ := sub_floor_bounds sy
  have key : ∀ a b c d : ℕ, a ≤ 255 → b ≤ 255 → c ≤ 255 → d ≤ 255 →
      (goRound ((1 - (sy - ⌊sy⌋)) * ((1 - (sx - ⌊sx⌋)) * a + (sx - ⌊sx⌋) * b) +
        (sy - ⌊sy⌋) * ((1 - (sx - ⌊sx⌋)) * c + (sx - ⌊sx⌋) * d))).toNat ≤ 255 := by
    intro a b c d ha hb hc hd
    have haq : (a : ℚ) ≤ 255 := by exact_mod_cast ha
    have hbq : (b : ℚ) ≤ 255 := by exact_mod_cast hb
    have hcq : (c : ℚ) ≤ 255 := by exact_mod_cast hc
    have hdq : (d : ℚ) ≤ 255 := by exact_mod_cast hd
    obtain ⟨h10, h11⟩ := convex_bound (sx - ⌊sx⌋) a b hfx0 hfx1
      (Nat.cast_nonneg a) haq (Nat.cast_nonneg b) hbq
    obtain ⟨h20, h21⟩ := convex_bound (sx - ⌊sx⌋) c d hfx0 hfx1
      (Nat.cast_nonneg c) hcq (Nat.cast_nonneg d) hdq
    obtain ⟨h30, h31⟩ := convex_bound (sy - ⌊sy⌋) _ _ hfy0 hfy1 h10 h11 h20 h21
    have hle := goRound_le _ 255 h30 (by exact_mod_cast h31)
    exact Int.toNat_le.mpr (by exact_mod_cast hle)
  unfold bilinearSample
  dsimp only
  exact ⟨key _ _ _ _ (hWf _ _).1 (hWf _ _).1 (hWf _ _).1 (hWf _ _).1,
    key _ _ _ _ (hWf _ _).2.1 (hWf _ _).2.1 (hWf _ _).2.1 (hWf _ _).2.1,
    key _ _ _ _ (hWf _ _).2.2 (hWf _ _).2.2 (hWf _ _).2.2 (hWf _ _).2.2⟩

theorem scaleTo_Wf (W H : ℕ) (src : Raster) (hWf : src.Wf) : (scaleTo W H src).Wf :=
  fun _ _ => bilinearSample_channels_le src hWf _ _

theorem shiftImage_Wf (img : Raster) (dx dy : ℤ) (hWf : img.Wf) :
    (shiftImage img dx dy).Wf := by
  intro x y
  unfold shiftImage
  dsimp only
  split
  · refine ⟨?_, ?_, ?_⟩ <;> simp [blackPixel]
  · exact hWf _ _

/-- The red-channel accumulation buffer cell after fusing `imgs`
(chicha-superresolution.go:192-207): every worker walks the entire canvas of
its frame and does `accR[y][x] += float64(r >> 8)`; the per-cell additions
commute across frames, so the cell after all frames is the sum over the frame
list (exact in `ℚ`). -/
def accR (imgs : List Raster) (x y : ℕ) : ℚ :=
  (imgs.map fun i => ((i.pix x y).r : ℚ)).sum

/-- Green-channel accumulation buffer cell (as `accR`). -/
def accG (imgs : List Raster) (x y : ℕ) : ℚ :=
  (imgs.map fun i => ((i.pix x y).g : ℚ)).sum

/-- Blue-channel accumulation buffer cell (as `accR`). -/
def accB (imgs : List Raster) (x y : ℕ) : ℚ :=
  (imgs.map fun i => ((i.pix x y).b : ℚ)).sum

/-- The weight buffer cell after fusing `imgs`: `weights[y][x]++` once per
frame at every canvas pixel. -/
def weightAt (imgs : List Raster) (x y : ℕ) : ℚ :=
  (imgs.map fun _ => (1 : ℚ)).sum

/-- Normalization of one canvas pixel (chicha-superresolution.go:223-234):
`uint8(math.Min(math.Round(acc/weight), 255))` per channel, alpha 255, when
the weight is positive; opaque white `(255,255,255)` otherwise.  The `uint8`
conversion of the resulting nonnegative value is `Int.toNat`.  (This loop is
identical in the revision src/unnamed/part_002, lines 221-234.) -/
def normalizePixel (r g b w : ℚ) : Pixel :=
  if 0 < w then
    ⟨(min (goRound (r / w)) 255).toNat,
     (min (goRound (g / w)) 255).toNat,
     (min (goRound (b / w)) 255).toNat⟩
  else ⟨255, 255, 255⟩

/-- Fusion followed by normalization: the output canvas built from the
accumulation buffers of the given canvas-sized rasters. -/
def fuseNormalize (W H : ℕ) (imgs : List Raster) : Raster :=
  ⟨W, H, fun x y =>
    normalizePixel (accR imgs x y) (accG imgs x y) (accB imgs x y) (weightAt imgs x y)⟩

/-- One execution of `performSuperResolution`
(chicha-superresolution.go:161-238) on decoded frames, an upscale factor (a
Go `int`), and the channel arrival order of each frame's `findOverlap` run.
`none` models a panic.  An empty frame set panics at `images[0]` (index out
of range).  The only other panic is a `make` with a negative length:
`make([][]float64, highResHeight)` panics when `hrH < 0`, and the inner
`make([]float64, highResWidth)` — executed only when there is at least one
row — panics when `0 < hrH` and `hrW < 0`.  When `hrH = 0` and `hrW < 0` no
`make` receives a negative length and the pipeline proceeds, returning a
zero-area raster (modelled 0×0; the Go image has canonicalized zero-area
bounds).  Otherwise the pipeline aligns the frames, upscales every aligned
frame to the `W·U × H·U` canvas with the bilinear Upscaler, accumulates
them and normalizes. -/
def performSuperResolutionExec (images : List Raster) (upscaleFactor : ℤ)
    (orders : List (List (ℤ × ℤ))) : Option Raster :=
  match images with
  | [] => none
  | ref :: rest =>
    let hrW : ℤ := (ref.w : ℤ) * upscaleFactor
    let hrH : ℤ := (ref.h : ℤ) * upscaleFactor
    if hrH < 0 ∨ (0 < hrH ∧ hrW < 0) then none
    else
      let aligned := findAndAlignImagesExec ref rest orders
      let scaled := aligned.map (scaleTo hrW.toNat hrH.toNat)
      some (fuseNormalize hrW.toNat hrH.toNat scaled)

/-- `performSuperResolution` under the canonical (launch-order) schedule of
every `findOverlap` run. -/
def performSuperResolution (images : List Raster) (upscaleFactor : ℤ) : Option Raster :=
  performSuperResolutionExec images upscaleFactor ((images.drop 1).map fun _ => offsets 50)

theorem weightAt_eq_length (imgs : List Raster) (x y : ℕ) :
    weightAt imgs x y = (imgs.length : ℚ) := by
  unfold weightAt
  induction imgs with
  | nil => simp
  | cons i is ih =>
    simp only [List.map_cons, List.sum_cons, ih, List.length_cons]
    push_cast
    ring

theorem alignExec_length (ref : Raster) (rest : List Raster)
    (orders : List (List (ℤ × ℤ))) (hlen : orders.length = rest.length) :
    (findAndAlignImagesExec ref rest orders).length = rest.length + 1 := by
  simp [findAndAlignImagesExec, hlen]

/-- The weight buffer of the earlier revision src/unnamed/part_002 (lines
202-218): there is no Upscaler there — each source pixel `(x, y)` of each
frame is accumulated only at the single canvas cell `(x·U, y·U)`, so a
canvas cell's weight counts, per frame, the source pixels mapping onto it. -/
def weightsP2 (images : List Raster) (srcW srcH U X Y : ℕ) : ℚ :=
  (images.map fun _ =>
    (((scanCoords srcW srcH).countP fun xy =>
      decide (xy.1 * U = X ∧ xy.2 * U = Y)) : ℚ)).sum

/-- **C2 (counterexample)**: the claim is false on the revision
src/unnamed/part_002 that it cites: with one 1×1 frame and upscale factor 2,
canvas pixel `(1,1)` (inside the 2×2 canvas) has weight `0`, not the frame
count `1`. -/
theorem weightsP2_hole :
    weightsP2 [onePix 8 8 8] 1 1 2 1 1 = 0 ∧ 1 < 1 * 2 ∧
    (([onePix 8 8 8].length : ℕ) : ℚ) = 1 ∧ (0 : ℚ) ≠ 1 := by
  refine ⟨?_, by norm_num, by norm_num, by norm_num⟩
  norm_num [weightsP2, scanCoords, List.range_succ, List.countP_cons]

/-- **C2 (amended)**: in the current revision (chicha-superresolution.go) the
fusion loop walks the entire `W·U × H·U` canvas once per frame, so after the
fusion stage and before normalization the weight buffer holds exactly the
frame count `N` at every canvas pixel.  (In the earlier revision part_002,
which has no Upscaler and accumulates each source pixel only at `(x·U, y·U)`,
this holds at every pixel only when `U = 1`.) -/
theorem fusion_weight_eq_N (ref : Raster) (rest : List Raster)
    (orders : List (List (ℤ × ℤ))) (U : ℕ)
    (hlen : orders.length = rest.length) (x y : ℕ)
    (hx : x < ref.w * U) (hy : y < ref.h * U) :
    weightAt ((findAndAlignImagesExec ref rest orders).map
        (scaleTo (ref.w * U) (ref.h * U))) x y = (((ref :: rest).length : ℕ) : ℚ) := by
  rw [weightAt_eq_length, List.length_map, alignExec_length ref rest orders hlen,
    List.length_cons]

/-- Witness for `fusion_weight_eq_N`: a single 1×1 frame at factor 1. -/
theorem fusion_weight_eq_N_witness :
    weightAt ((findAndAlignImagesExec (onePix 3 4 5) [] []).map
        (scaleTo ((onePix 3 4 5).w * 1) ((onePix 3 4 5).h * 1))) 0 0 =
      ((((onePix 3 4 5) :: []).length : ℕ) : ℚ) :=
  fusion_weight_eq_N (onePix 3 4 5) [] [] 1 rfl 0 0 (by norm_num [onePix])
    (by norm_num [onePix])

theorem accR_nonneg (imgs : List Raster) (x y : ℕ) : 0 ≤ accR imgs x y := by
  unfold accR
  apply List.sum_nonneg
  intro q hq
  simp only [List.mem_map] at hq
  obtain ⟨i, _, rfl⟩ := hq
  exact Nat.cast_nonneg _

theorem accG_nonneg (imgs : List Raster) (x y : ℕ) : 0 ≤ accG imgs x y := by
  unfold accG
  apply List.sum_nonneg
  intro q hq
  simp only [List.mem_map] at hq
  obtain ⟨i, _, rfl⟩ := hq
  exact Nat.cast_nonneg _

theorem accB_nonneg (imgs : List Raster) (x y : ℕ) : 0 ≤ accB imgs x y := by
  unfold accB
  apply List.sum_nonneg
  intro q hq
  simp only [List.mem_map] at hq
  obtain ⟨i, _, rfl⟩ := hq
  exact Nat.cast_nonneg _

/-- **C6**: for every canvas pixel, the Output Raster's value is
`round(sum/weight)` per channel clamped to `[0,255]` when the pixel's weight
is positive (the lower clamp is vacuous because the sums are nonnegative, so
the source's `math.Min(·, 255)` realizes the full clamp), and opaque white
`(255,255,255)` when the weight is zero.  Alpha is the constant 255 in both
branches of the source and is not modelled.  The same normalization loop
appears verbatim in the revision src/unnamed/part_002. -/
theorem normalization_spec (W H : ℕ) (imgs : List Raster) (x y : ℕ) :
    (fuseNormalize W H imgs).pix x y =
      if 0 < weightAt imgs x y then
        ⟨(max 0 (min (goRound (accR imgs x y / weightAt imgs x y)) 255)).toNat,
         (max 0 (min (goRound (accG imgs x y / weightAt imgs x y)) 255)).toNat,
         (max 0 (min (goRound (accB imgs x y / weightAt imgs x y)) 255)).toNat⟩
      else ⟨255, 255, 255⟩ := by
  unfold fuseNormalize normalizePixel
  dsimp only
  split
  case isTrue h =>
    have hr : (0 : ℤ) ≤ min (goRound (accR imgs x y / weightAt imgs x y)) 255 :=
      le_min (goRound_nonneg _ (div_nonneg (accR_nonneg imgs x y) (le_of_lt h)))
        (by norm_num)
    have hg : (0 : ℤ) ≤ min (goRound (accG imgs x y / weightAt imgs x y)) 255 :=
      le_min (goRound_nonneg _ (div_nonneg (accG_nonneg imgs x y) (le_of_lt h)))
        (by norm_num)
    have hb : (0 : ℤ) ≤ min (goRound (accB imgs x y / weightAt imgs x y)) 255 :=
      le_min (goRound_nonneg _ (div_nonneg (accB_nonneg imgs x y) (le_of_lt h)))
        (by norm_num)
    rw [max_eq_right hr, max_eq_right hg, max_eq_right hb]
  case isFalse h => rfl

theorem sum_le_mul_length (l : List ℚ) (B : ℚ) (h : ∀ q ∈ l, q ≤ B) :
    l.sum ≤ B * l.length := by
  induction l with
  | nil => simp
  | cons q qs ih =>
    have hq := h q (List.mem_cons_self q qs)
    have hqs := ih (fun p hp => h p (List.mem_cons_of_mem q hp))
    simp only [List.sum_cons, List.length_cons]
    push_cast
    linarith

theorem acc_div_weight_le (s : List Raster) (x y : ℕ) (hlen : 0 < s.length)
    (hr : ∀ i ∈ s, (i.pix x y).r ≤ 255) (hg : ∀ i ∈ s, (i.pix x y).g ≤ 255)
    (hb : ∀ i ∈ s, (i.pix x y).b ≤ 255) :
    accR s x y / weightAt s x y ≤ 255 ∧ accG s x y / weightAt s x y ≤ 255 ∧
      accB s x y / weightAt s x y ≤ 255 := by
  have hw : weightAt s x y = (s.length : ℚ) := weightAt_eq_length s x y
  have hlq : (0 : ℚ) < (s.length : ℚ) := by exact_mod_cast hlen
  refine ⟨?_, ?_, ?_⟩
  · unfold accR
    rw [hw, div_le_iff₀ hlq]
    have h1 := sum_le_mul_length (s.map fun i => (((i.pix x y).r : ℕ) : ℚ)) 255 ?_
    · rw [List.length_map] at h1
      linarith [h1]
    · intro q hq
      simp only [List.mem_map] at hq
      obtain ⟨i, hi, rfl⟩ := hq
      exact_mod_cast hr i hi
  · unfold accG
    rw [hw, div_le_iff₀ hlq]
    have h1 := sum_le_mul_length (s.map fun i => (((i.pix x y).g : ℕ) : ℚ)) 255 ?_
    · rw [List.length_map] at h1
      linarith [h1]
    · intro q hq
      simp only [List.mem_map] at hq
      obtain ⟨i, hi, rfl⟩ := hq
      exact_mod_cast hg i hi
  · unfold accB
    rw [hw, div_le_iff₀ hlq]
    have h1 := sum_le_mul_length (s.map fun i => (((i.pix x y).b : ℕ) : ℚ)) 255 ?_
    · rw [List.length_map] at h1
      linarith [h1]
    · intro q hq
      simp only [List.mem_map] at hq
      obtain ⟨i, hi, rfl⟩ := hq
      exact_mod_cast hb i hi

/-- **C10**: in the (race-free) sequential fusion, every per-channel value
added to the accumulation buffer comes from an upscaled 8-bit raster, hence
lies in `[0,255]`; so at every pixel (the weight is the positive frame
count) the quotient sum/weight is at most 255, and the upper clamp
`math.Min(·,255)` in normalization never alters the rounded value: the
normalized pixel is exactly `round(sum/weight)` per channel. -/
theorem clamp_redundant (W H : ℕ) (s : List Raster) (hWf : ∀ i ∈ s, i.Wf)
    (hne : s ≠ []) (x y : ℕ) :
    (∀ i ∈ s, (i.pix x y).r ≤ 255 ∧ (i.pix x y).g ≤ 255 ∧ (i.pix x y).b ≤ 255) ∧
    (fuseNormalize W H s).pix x y =
      ⟨(goRound (accR s x y / weightAt s x y)).toNat,
       (goRound (accG s x y / weightAt s x y)).toNat,
       (goRound (accB s x y / weightAt s x y)).toNat⟩ := by
  have hch : ∀ i ∈ s, (i.pix x y).r ≤ 255 ∧ (i.pix x y).g ≤ 255 ∧ (i.pix x y).b ≤ 255 :=
    fun i hi => hWf i hi x y
  refine ⟨hch, ?_⟩
  have hlen : 0 < s.length := List.length_pos.mpr hne
  have hwpos : 0 < weightAt s x y := by
    rw [weightAt_eq_length]
    exact_mod_cast hlen
  obtain ⟨hdR, hdG, hdB⟩ := acc_div_weight_le s x y hlen
    (fun i hi => (hch i hi).1) (fun i hi => (hch i hi).2.1) (fun i hi => (hch i hi).2.2)
  unfold fuseNormalize normalizePixel
  dsimp only
  rw [if_pos hwpos,
    min_eq_left (goRound_le _ 255
      (div_nonneg (accR_nonneg s x y) (le_of_lt hwpos)) (by exact_mod_cast hdR)),
    min_eq_left (goRound_le _ 255
      (div_nonneg (accG_nonneg s x y) (le_of_lt hwpos)) (by exact_mod_cast hdG)),
    min_eq_left (goRound_le _ 255
      (div_nonneg (accB_nonneg s x y) (le_of_lt hwpos)) (by exact_mod_cast hdB))]

/-- Witness for `clamp_redundant` on one constant 1×1 frame. -/
theorem clamp_redundant_witness :
    (∀ i ∈ [onePix 9 9 9], ((i.pix 0 0).r ≤ 255 ∧ (i.pix 0 0).g ≤ 255 ∧
        (i.pix 0 0).b ≤ 255)) ∧
    (fuseNormalize 1 1 [onePix 9 9 9]).pix 0 0 =
      ⟨(goRound (accR [onePix 9 9 9] 0 0 / weightAt [onePix 9 9 9] 0 0)).toNat,
       (goRound (accG [onePix 9 9 9] 0 0 / weightAt [onePix 9 9 9] 0 0)).toNat,
       (goRound (accB [onePix 9 9 9] 0 0 / weightAt [onePix 9 9 9] 0 0)).toNat⟩ :=
  clamp_redundant 1 1 [onePix 9 9 9]
    (by
      intro i hi
      simp only [List.mem_singleton] at hi
      subst hi
      intro a b
      refine ⟨?_, ?_, ?_⟩ <;> simp [onePix])
    (by simp) 0 0

/-- **C8 (counterexample)**: a non-positive upscale factor does not abort the
call: factor `0` on a 1×1 frame silently returns a degenerate 0×0 output
raster instead of failing. -/
theorem perform_zero_factor_silent :
    performSuperResolutionExec [onePix 1 1 1] 0 [] =
      some (fuseNormalize 0 0 ((findAndAlignImagesExec (onePix 1 1 1) [] []).map
        (scaleTo 0 0))) ∧
    (fuseNormalize 0 0 ((findAndAlignImagesExec (onePix 1 1 1) [] []).map
        (scaleTo 0 0))).w = 0 ∧
    (fuseNormalize 0 0 ((findAndAlignImagesExec (onePix 1 1 1) [] []).map
        (scaleTo 0 0))).h = 0 :=
  ⟨rfl, rfl, rfl⟩

/-- **C8 (amended)**: an empty frame set panics (`images[0]`, an
index-out-of-range abort), and a negative factor with a *positive-area*
reference panics inside `make` (`make([][]float64, highResHeight)` with a
negative length) — both are modelled as `none`.  But the core does not
always fail loudly: a factor of `0`, a zero-area reference at a positive
factor, and even a negative factor on a zero-height positive-width
reference (no `make` ever receives the negative width, since there are no
rows) all silently return an empty output raster. -/
theorem precondition_handling (ref : Raster) (rest : List Raster)
    (orders : List (List (ℤ × ℤ))) (U : ℤ) (hU : U < 0) (hw : 0 < ref.w)
    (hh : 0 < ref.h) :
    performSuperResolutionExec [] U orders = none ∧
    performSuperResolutionExec (ref :: rest) U orders = none ∧
    (∃ out, performSuperResolutionExec (ref :: rest) 0 orders = some out ∧
      out.w = 0 ∧ out.h = 0) ∧
    (∃ out2, performSuperResolutionExec (⟨0, 0, ref.pix⟩ :: rest) 1 orders = some out2 ∧
      out2.w = 0 ∧ out2.h = 0) ∧
    (∃ out3, performSuperResolutionExec (⟨ref.w, 0, ref.pix⟩ :: rest) U orders = some out3 ∧
      out3.w = 0 ∧ out3.h = 0) := by
  refine ⟨rfl, ?_, ?_, ?_, ?_⟩
  · have hneg : (ref.h : ℤ) * U < 0 :=
      mul_neg_of_pos_of_neg (by exact_mod_cast hh) hU
    simp [performSuperResolutionExec, hneg]
  · refine ⟨fuseNormalize ((ref.w : ℤ) * 0).toNat ((ref.h : ℤ) * 0).toNat
      ((findAndAlignImagesExec ref rest orders).map
        (scaleTo ((ref.w : ℤ) * 0).toNat ((ref.h : ℤ) * 0).toNat)), ?_, ?_, ?_⟩
    · simp [performSuperResolutionExec]
    · simp [fuseNormalize]
    · simp [fuseNormalize]
  · refine ⟨fuseNormalize 0 0
      ((findAndAlignImagesExec ⟨0, 0, ref.pix⟩ rest orders).map (scaleTo 0 0)), ?_, rfl, rfl⟩
    simp [performSuperResolutionExec]
  · have hneg : (ref.w : ℤ) * U < 0 :=
      mul_neg_of_pos_of_neg (by exact_mod_cast hw) hU
    refine ⟨fuseNormalize ((ref.w : ℤ) * U).toNat 0
      ((findAndAlignImagesExec ⟨ref.w, 0, ref.pix⟩ rest orders).map
        (scaleTo ((ref.w : ℤ) * U).toNat 0)), ?_, ?_, rfl⟩
    · simp [performSuperResolutionExec, Int.toNat_of_nonpos (le_of_lt hneg)]
    · show ((ref.w : ℤ) * U).toNat = 0
      exact Int.toNat_of_nonpos (le_of_lt hneg)

/-- Witness for `precondition_handling` at factor `-1` on a 1×1 frame. -/
theorem precondition_handling_witness :
    performSuperResolutionExec [] (-1) [] = none ∧
    performSuperResolutionExec [onePix 2 2 2] (-1) [] = none ∧
    (∃ out, performSuperResolutionExec [onePix 2 2 2] 0 [] = some out ∧
      out.w = 0 ∧ out.h = 0) ∧
    (∃ out2, performSuperResolutionExec
        [(⟨0, 0, (onePix 2 2 2).pix⟩ : Raster)] 1 [] = some out2 ∧
      out2.w = 0 ∧ out2.h = 0) ∧
    (∃ out3, performSuperResolutionExec
        [(⟨(onePix 2 2 2).w, 0, (onePix 2 2 2).pix⟩ : Raster)] (-1) [] = some out3 ∧
      out3.w = 0 ∧ out3.h = 0) :=
  precondition_handling (onePix 2 2 2) [] [] (-1) (by norm_num) (by norm_num [onePix])
    (by norm_num [onePix])

theorem findOverlapExec_head_zero (refImg img : Raster) (c : ℤ × ℤ)
    (cs : List (ℤ × ℤ)) (hc : calculateDifference refImg img c.1 c.2 = 0) :
    findOverlapExec refImg img (c :: cs) = c := by
  unfold findOverlapExec
  rw [runMin]
  have hlt : calculateDifference refImg img c.1 c.2 < maxFloat64 := by
    rw [hc]
    exact maxFloat64_pos
  rw [if_pos hlt]
  have hstay : ∀ d ∈ cs,
      ((fun e : ℤ × ℤ => calculateDifference refImg img e.1 e.2) c, c).1 ≤
        (fun e : ℤ × ℤ => calculateDifference refImg img e.1 e.2) d := by
    intro d hd
    dsimp only
    rw [hc]
    exact calculateDifference_nonneg refImg img d.1 d.2
  rw [runMin_stay _ cs _ hstay]

/-- An arrival order for the `findOverlap` offset grid that delivers the
candidate `(0,0)` first (a valid schedule: it is a permutation of the grid). -/
def ordA : List (ℤ × ℤ) := ((0, 0) : ℤ × ℤ) :: ((offsets 50).erase (0, 0))

/-- An arrival order that delivers the candidate `(1,1)` first. -/
def ordB : List (ℤ × ℤ) := ((1, 1) : ℤ × ℤ) :: ((offsets 50).erase (1, 1))

/-- **C7 (counterexample)**: on a constant 2×2 white frame matched against
itself, all overlapping offsets tie at difference 0, and two valid channel
arrival orders of `findOverlap` (both permutations of the `offsets 50` grid)
select different offsets — so two executions of the reconstruction can pick
different offsets for the same frame and the output is not bit-identical
across runs. -/
theorem cons_erase_perm {α : Type} [BEq α] [LawfulBEq α] (a : α) :
    ∀ l : List α, a ∈ l → (a :: l.erase a).Perm l := by
  intro l
  induction l with
  | nil => intro h; cases h
  | cons b bs ih =>
    intro h
    by_cases hb : b = a
    · subst hb
      rw [List.erase_cons_head]
    · rw [List.erase_cons_tail (by simp [hb])]
      have hmem : a ∈ bs := by
        rcases List.mem_cons.mp h with h1 | h1
        · exact absurd h1.symm hb
        · exact h1
      exact (List.Perm.swap b a (bs.erase a)).trans ((ih hmem).cons b)

theorem findOverlap_tie_nondeterministic :
    ordA.Perm (offsets 50) ∧ ordB.Perm (offsets 50) ∧
    findOverlapExec white2 white2 ordA = (0, 0) ∧
    findOverlapExec white2 white2 ordB = (1, 1) ∧
    ((0, 0) : ℤ × ℤ) ≠ (1, 1) := by
  refine ⟨?_, ?_, ?_, ?_, by decide⟩
  · exact cons_erase_perm (0, 0) (offsets 50)
      ((mem_offsets 50 (0, 0)).mpr (by refine ⟨?_, ?_, ?_, ?_⟩ <;> norm_num))
  · exact cons_erase_perm (1, 1) (offsets 50)
      ((mem_offsets 50 (1, 1)).mpr (by refine ⟨?_, ?_, ?_, ?_⟩ <;> norm_num))
  · exact findOverlapExec_head_zero white2 white2 (0, 0) _
      (by norm_num [calculateDifference, scanCoords, sqDiff, wrapSub, white2, List.range_succ])
  · exact findOverlapExec_head_zero white2 white2 (1, 1) _
      (by norm_num [calculateDifference, scanCoords, sqDiff, wrapSub, white2, List.range_succ])

/-- **C7 (amended)**: two executions of `findOverlap` whose channel arrival
orders are permutations of the same candidate grid select the same offset
whenever the difference-metric minimizer over the grid is unique (and scores
below the sentinel); when several offsets tie for the minimum, the selected
offset depends on the scheduler-determined arrival order (see the
counterexample), so bit-identical multi-threaded output is guaranteed only
for unique minimizers. -/
theorem findOverlapExec_deterministic_of_unique (refImg img : Raster)
    (grid ord1 ord2 : List (ℤ × ℤ)) (h1 : ord1.Perm grid) (h2 : ord2.Perm grid)
    (m : ℤ × ℤ) (hm : m ∈ grid)
    (hmlt : calculateDifference refImg img m.1 m.2 < maxFloat64)
    (huniq : ∀ c ∈ grid, c ≠ m →
      calculateDifference refImg img m.1 m.2 < calculateDifference refImg img c.1 c.2) :
    findOverlapExec refImg img ord1 = findOverlapExec refImg img ord2 := by
  have key : ∀ ord : List (ℤ × ℤ), ord.Perm grid → findOverlapExec refImg img ord = m := by
    intro ord hperm
    have hmem : m ∈ ord := hperm.mem_iff.mpr hm
    rcases runMin_attained (fun c => calculateDifference refImg img c.1 c.2) ord
        (maxFloat64, 0, 0) with heq | ⟨hbm, hfst, _⟩
    · have hle := runMin_fst_le (fun c => calculateDifference refImg img c.1 c.2) ord
        (maxFloat64, 0, 0) m hmem
      rw [heq] at hle
      simp only [] at hle
      exact absurd (lt_of_le_of_lt hle hmlt) (lt_irrefl _)
    · have hle := runMin_fst_le (fun c => calculateDifference refImg img c.1 c.2) ord
        (maxFloat64, 0, 0) m hmem
      unfold findOverlapExec
      by_contra hne
      have hbg : (runMin (fun c => calculateDifference refImg img c.1 c.2)
          (maxFloat64, 0, 0) ord).2 ∈ grid := hperm.mem_iff.mp hbm
      have hgt := huniq _ hbg hne
      simp only [] at hfst hle hgt
      rw [hfst] at hle
      exact absurd (lt_of_le_of_lt hle hgt) (lt_irrefl _)
  rw [key ord1 h1, key ord2 h2]

/-- Witness for `findOverlapExec_deterministic_of_unique` on the singleton
grid with a 1×1 frame. -/
theorem findOverlapExec_deterministic_of_unique_witness :
    findOverlapExec (onePix 2 2 2) (onePix 2 2 2) [((0 : ℤ), (0 : ℤ))] =
      findOverlapExec (onePix 2 2 2) (onePix 2 2 2) [((0 : ℤ), (0 : ℤ))] :=
  findOverlapExec_deterministic_of_unique (onePix 2 2 2) (onePix 2 2 2)
    [((0 : ℤ), (0 : ℤ))] [((0 : ℤ), (0 : ℤ))] [((0 : ℤ), (0 : ℤ))]
    (List.Perm.refl _) (List.Perm.refl _) ((0 : ℤ), (0 : ℤ))
    (List.mem_singleton.mpr rfl)
    (by
      have hz : calculateDifference (onePix 2 2 2) (onePix 2 2 2) 0 0 = 0 := by
        norm_num [calculateDifference, scanCoords, sqDiff, wrapSub, onePix, List.range_succ]
      rw [hz]
      exact maxFloat64_pos)
    (by
      intro c hc hcne
      exact absurd (List.mem_singleton.mp hc) hcne)

theorem shiftImage_zero_pix (img : Raster) (x y : ℕ) (hx : x < img.w) (hy : y < img.h) :
    (shiftImage img 0 0).pix x y = img.pix x y := by
  unfold shiftImage
  dsimp only
  rw [if_neg (by push_neg; omega)]
  simp

theorem scaleTo_pix_shift_zero (r : Raster) (x y : ℕ) (hx : x < r.w) (hy : y < r.h)
    (X Y : ℕ) : (scaleTo r.w r.h (shiftImage r 0 0)).pix X Y = (scaleTo r.w r.h r).pix X Y := by
  unfold scaleTo
  dsimp only
  exact bilinearSample_congr (shiftImage r 0 0) r rfl rfl
    (show 0 < (shiftImage r 0 0).w from by simp only [shiftImage]; omega)
    (show 0 < (shiftImage r 0 0).h from by simp only [shiftImage]; omega)
    (fun a b ha hb => shiftImage_zero_pix r a b ha hb) _ _

theorem sum_map_constant {α : Type} (l : List α) (f : α → ℚ) (v : ℚ)
    (h : ∀ a ∈ l, f a = v) : (l.map f).sum = l.length * v := by
  induction l with
  | nil => simp
  | cons a as ih =>
    simp only [List.map_cons, List.sum_cons, List.length_cons,
      h a (List.mem_cons_self a as), ih (fun b hb => h b (List.mem_cons_of_mem a hb))]
    push_cast
    ring

theorem mem_zipWith {α β γ : Type} (f : α → β → γ) :
    ∀ (l₁ : List α) (l₂ : List β) (c : γ), c ∈ List.zipWith f l₁ l₂ →
      ∃ (i : ℕ) (a : α) (b : β), l₁[i]? = some a ∧ l₂[i]? = some b ∧ c = f a b := by
  intro l₁
  induction l₁ with
  | nil => intro l₂ c hc; simp at hc
  | cons x xs ih =>
    intro l₂ c hc
    cases l₂ with
    | nil => simp at hc
    | cons y ys =>
      rw [List.zipWith_cons_cons] at hc
      rcases List.mem_cons.mp hc with rfl | hc
      · exact ⟨0, x, y, by simp, by simp, rfl⟩
      · obtain ⟨i, a, b, h1, h2, h3⟩ := ih ys c hc
        exact ⟨i + 1, a, b, by simpa using h1, by simpa using h2, h3⟩

/-- **C9 (counterexample)**: two copies of a constant white 2×2 raster at
upscale factor 1.  All overlapping offsets of a constant frame tie at zero
difference, and a valid `findOverlap` arrival order (a permutation of the
grid) makes the Estimator return `(1,1)` for the duplicate frame; the shift
pads with black, so output pixel `(0,0)` averages white and black to
`(128,128,128)` — not the original `(255,255,255)`. -/
theorem superres_not_idempotent :
    ordB.Perm (offsets 50) ∧
    (performSuperResolutionExec [white2, white2] 1 [ordB]).map (fun out => out.pix 0 0) =
      some ⟨128, 128, 128⟩ ∧
    white2.pix 0 0 = ⟨255, 255, 255⟩ ∧ Pixel.mk 128 128 128 ≠ ⟨255, 255, 255⟩ := by
  refine ⟨cons_erase_perm (1, 1) (offsets 50)
    ((mem_offsets 50 (1, 1)).mpr (by refine ⟨?_, ?_, ?_, ?_⟩ <;> norm_num)), ?_, rfl, by decide⟩
  have hoff : findOverlapExec white2 white2 ordB = (1, 1) :=
    findOverlapExec_head_zero white2 white2 (1, 1) _
      (by norm_num [calculateDifference, scanCoords, sqDiff, wrapSub, white2, List.range_succ])
  have halign : findAndAlignImagesExec white2 [white2] [ordB] =
      [white2, shiftImage white2 1 1] := by
    unfold findAndAlignImagesExec
    rw [List.zipWith_cons_cons]
    dsimp only
    rw [hoff]
    rfl
  have hpipe : performSuperResolutionExec [white2, white2] 1 [ordB] =
      some (fuseNormalize 2 2 ((findAndAlignImagesExec white2 [white2] [ordB]).map
        (scaleTo 2 2))) := rfl
  have hs1 : (scaleTo 2 2 white2).pix 0 0 = ⟨255, 255, 255⟩ := by
    norm_num [scaleTo, bilinearSample, clampIndex, white2, goRound, Int.toNat_zero,
      Int.toNat_one, Int.toNat_ofNat]
    decide
  have hs2 : (scaleTo 2 2 (shiftImage white2 1 1)).pix 0 0 = ⟨0, 0, 0⟩ := by
    norm_num [scaleTo, bilinearSample, clampIndex, shiftImage, white2, blackPixel,
      goRound, Int.toNat_zero, Int.toNat_one]
  rw [hpipe, halign]
  simp only [Option.map_some', List.map_cons, List.map_nil]
  unfold fuseNormalize accR accG accB weightAt
  dsimp only
  simp only [List.map_cons, List.map_nil, List.sum_cons, List.sum_nil, hs1, hs2]
  norm_num [normalizePixel, goRound, Int.toNat_ofNat]
  decide

theorem mem_of_getElem? {α : Type} : ∀ (l : List α) (i : ℕ) (a : α),
    l[i]? = some a → a ∈ l := by
  intro l
  induction l with
  | nil => intro i a h; simp at h
  | cons x xs ih =>
    intro i a h
    cases i with
    | zero =>
      simp only [List.getElem?_cons_zero, Option.some.injEq] at h
      exact h ▸ List.mem_cons_self x xs
    | succ n =>
      rw [List.getElem?_cons_succ] at h
      exact List.mem_cons_of_mem x (ih n a h)

/-- **C9 (amended)**: reconstructing a Frame Set of N copies of one raster
with upscale factor 1 reproduces the raster exactly at every pixel —
provided the Estimator execution returns offset `(0,0)` for every duplicate
frame (guaranteed, e.g., when `(0,0)` is the unique minimizer).  For rasters
where several offsets tie at zero difference (e.g., constant rasters) the
estimator may return a nonzero offset, black padding enters the average and
the output differs from the original — see the counterexample. -/
theorem superres_idempotent_of_zero_offsets (r : Raster) (hWf : r.Wf)
    (rest : List Raster) (orders : List (List (ℤ × ℤ)))
    (hrest : ∀ img ∈ rest, img = r) (hlen : orders.length = rest.length)
    (hoff : ∀ (i : ℕ) (img : Raster) (ord : List (ℤ × ℤ)),
      rest[i]? = some img → orders[i]? = some ord →
      findOverlapExec r img ord = (0, 0)) :
    ∃ out, performSuperResolutionExec (r :: rest) 1 orders = some out ∧
      ∀ x y, x < r.w → y < r.h → out.pix x y = r.pix x y := by
  refine ⟨fuseNormalize ((r.w : ℤ) * 1).toNat ((r.h : ℤ) * 1).toNat
    ((findAndAlignImagesExec r rest orders).map
      (scaleTo ((r.w : ℤ) * 1).toNat ((r.h : ℤ) * 1).toNat)), ?_, ?_⟩
  · simp [performSuperResolutionExec]
  · intro x y hx hy
    have hWend : ((r.w : ℤ) * 1).toNat = r.w := by simp
    have hHend : ((r.h : ℤ) * 1).toNat = r.h := by simp
    rw [hWend, hHend]
    have hall : ∀ i ∈ (findAndAlignImagesExec r rest orders).map (scaleTo r.w r.h),
        i.pix x y = r.pix x y := by
      intro i hi
      simp only [List.mem_map] at hi
      obtain ⟨j, hj, rfl⟩ := hi
      rw [findAndAlignImagesExec] at hj
      rcases List.mem_cons.mp hj with h0 | hj2
      · rw [h0]
        exact scaleTo_pix_id r x y hx hy
      · obtain ⟨i0, a, b, h1, h2, h3⟩ := mem_zipWith _ rest orders j hj2
        have ha : a = r := hrest a (mem_of_getElem? rest i0 a h1)
        have hov := hoff i0 a b h1 h2
        rw [h3]
        dsimp only
        rw [hov, ha]
        calc (scaleTo r.w r.h (shiftImage r ((0 : ℤ), (0 : ℤ)).1 ((0 : ℤ), (0 : ℤ)).2)).pix x y
            = (scaleTo r.w r.h (shiftImage r 0 0)).pix x y := rfl
          _ = (scaleTo r.w r.h r).pix x y := scaleTo_pix_shift_zero r x y hx hy x y
          _ = r.pix x y := scaleTo_pix_id r x y hx hy
    have hlenpos : 0 < ((findAndAlignImagesExec r rest orders).map (scaleTo r.w r.h)).length := by
      rw [List.length_map, alignExec_length r rest orders hlen]
      omega
    have haccR : accR ((findAndAlignImagesExec r rest orders).map (scaleTo r.w r.h)) x y =
        (((findAndAlignImagesExec r rest orders).map (scaleTo r.w r.h)).length : ℚ) *
          ((r.pix x y).r : ℚ) := by
      unfold accR
      exact sum_map_constant _ _ _ (fun i hi => by rw [hall i hi])
    have haccG : accG ((findAndAlignImagesExec r rest orders).map (scaleTo r.w r.h)) x y =
        (((findAndAlignImagesExec r rest orders).map (scaleTo r.w r.h)).length : ℚ) *
          ((r.pix x y).g : ℚ) := by
      unfold accG
      exact sum_map_constant _ _ _ (fun i hi => by rw [hall i hi])
    have haccB : accB ((findAndAlignImagesExec r rest orders).map (scaleTo r.w r.h)) x y =
        (((findAndAlignImagesExec r rest orders).map (scaleTo r.w r.h)).length : ℚ) *
          ((r.pix x y).b : ℚ) := by
      unfold accB
      exact sum_map_constant _ _ _ (fun i hi => by rw [hall i hi])
    have hNne : ((((findAndAlignImagesExec r rest orders).map (scaleTo r.w r.h)).length : ℕ) : ℚ) ≠ 0 :=
      ne_of_gt (by exact_mod_cast hlenpos)
    unfold fuseNormalize
    dsimp only
    rw [haccR, haccG, haccB, weightAt_eq_length]
    unfold normalizePixel
    rw [if_pos (by exact_mod_cast hlenpos)]
    rw [mul_div_cancel_left₀ _ hNne, mul_div_cancel_left₀ _ hNne,
      mul_div_cancel_left₀ _ hNne]
    rw [goRound_natCast, goRound_natCast, goRound_natCast]
    rw [min_eq_left (by exact_mod_cast (hWf x y).1),
      min_eq_left (by exact_mod_cast (hWf x y).2.1),
      min_eq_left (by exact_mod_cast (hWf x y).2.2)]
    rw [Int.toNat_natCast, Int.toNat_natCast, Int.toNat_natCast]

/-- Witness for `superres_idempotent_of_zero_offsets`: a single 1×1 frame. -/
theorem superres_idempotent_of_zero_offsets_witness :
    ∃ out, performSuperResolutionExec [onePix 7 8 9] 1 [] = some out ∧
      ∀ x y, x < (onePix 7 8 9).w → y < (onePix 7 8 9).h →
        out.pix x y = (onePix 7 8 9).pix x y :=
  superres_idempotent_of_zero_offsets (onePix 7 8 9)
    (fun x y => by refine ⟨?_, ?_, ?_⟩ <;> simp [onePix])
    [] [] (fun img h => absurd h (List.not_mem_nil img)) rfl
    (fun i img ord h1 h2 => by simp at h1)
